import Mathlib

/-!
# Verification of `FormatHandler` (mtgscrapper/mtg_format.py)

A shallow embedding of the format-inference pass of the `scrapper` repository.
The single source file `src/mtgscrapper/mtg_format.py` defines a class
`FormatHandler` that walks an article's content tree (sections, text blocks,
decklists), stamps a format label on each node, accumulates occurrence counts
in a `known_formats` dictionary, and finally decides an article-level format.

The content-tree item classes (`MtgArticle`, `MtgSection`, `MtgBlock`,
`Decklist`) come from `mtgscrapper/items.py`, which is not part of the given
sources; their shape is modelled from the specification: each content node has
a mutable nullable `format_` field, a section has a `title` and an ordered list
of children, a block has a `text`, an article has `title`, `tags`, a `formats`
list and a single settable primary format (`set_format` writes that field).

Python dictionaries preserve insertion order, so `known_formats` is embedded
as an association list `List (String × Nat)`; `dict.setdefault` and `+= 1`
become `setdefault0` and `incr`, which update the first matching key and
append missing keys at the end. `numpy.argmax` returns the first index
attaining the maximum, embedded as `argmax`. Python's `str.count` counts
non-overlapping occurrences scanning left to right, embedded as `countOcc`.
-/

/-- The fixed canonical vocabulary `MTGFORMATS.__args__`, in source order. -/
def MTGFORMATS : List String :=
  ["limited", "standard", "historic", "alchemy", "explorer", "pioneer"]

/-- Python's `str.lower()`, modelled code-point-wise via `Char.toLower`. -/
def lowerString (s : String) : String := String.mk (s.toList.map Char.toLower)

/-- Python's substring test `pat in s`, on exploded strings. -/
def isSubstring (pat : List Char) : List Char → Bool
  | [] => pat.isEmpty
  | c :: t => pat.isPrefixOf (c :: t) || isSubstring pat t

/-- Helper for `countOcc`: scans `s` left to right; a positive `skip` means we
are still inside a previously matched occurrence and may not match again. -/
def countOccAux (pat : List Char) : List Char → Nat → Nat
  | [], _ => 0
  | _ :: t, skip + 1 => countOccAux pat t skip
  | c :: t, 0 =>
      if pat.isPrefixOf (c :: t) then countOccAux pat t (pat.length - 1) + 1
      else countOccAux pat t 0

/-- Python's `s.count(pat)`: non-overlapping occurrences, scanning left to
right and skipping `pat.length` characters after each match. -/
def countOcc (pat s : List Char) : Nat :=
  if pat.isEmpty then s.length + 1 else countOccAux pat s 0

/-- `numpy.argmax`: the first index attaining the maximum (0 on `[]`). -/
def argmax : List Nat → Nat
  | [] => 0
  | x :: xs => if xs.all (fun y => decide (y ≤ x)) then 0 else argmax xs + 1

/-- The maximum of a list of naturals (0 on `[]`); used on the spec side to
characterise `argmax`. -/
def listMax (l : List Nat) : Nat := l.foldr max 0

/-- `known_formats`: a Python dict from format name to occurrence count,
embedded as an insertion-ordered association list. -/
abbrev KF := List (String × Nat)

/-- `known_formats.setdefault(k, 0)`: insert `(k, 0)` at the end if the key
is absent, otherwise leave the dict unchanged. -/
def setdefault0 : KF → String → KF
  | [], k => [(k, 0)]
  | (k', v) :: rest, k =>
      if k' == k then (k', v) :: rest else (k', v) :: setdefault0 rest k

/-- `known_formats.setdefault(k, 0); known_formats[k] += 1`: bump the first
entry with key `k`, appending `(k, 1)` if the key is absent. -/
def incr : KF → String → KF
  | [], k => [(k, 1)]
  | (k', v) :: rest, k =>
      if k' == k then (k', v + 1) :: rest else (k', v) :: incr rest k

/-- `{format_: 0 for format_ in formats}`: seed the accumulator with each
listed format at count 0, keeping first-occurrence order. -/
def seedKF (formats : List String) : KF := formats.foldl setdefault0 []

/-- The key list of the accumulator (`list(known_formats)`). -/
def keysOf (kf : KF) : List String := kf.map Prod.fst

/-- The count stored for key `k` (0 if the key is absent). -/
def countOf (kf : KF) (k : String) : Nat := (List.lookup k kf).getD 0

/-- `MtgBlock` (modelled from the spec): a text body and a nullable format. -/
structure MtgBlock where
  text : String
  format_ : Option String
deriving DecidableEq, Repr

/-- `Decklist` (modelled from the spec): only a nullable format. -/
structure Decklist where
  format_ : Option String
deriving DecidableEq, Repr

/-- A content node (modelled from the spec): a section with a title, a
nullable format and ordered children, or a block, or a decklist. The
`item_type` discriminator becomes the constructor tag. -/
inductive Content where
  | section_ (title : Option String) (format_ : Option String)
      (children : List Content)
  | block (b : MtgBlock)
  | decklist (d : Decklist)
deriving Repr

/-- `MtgArticle` (modelled from the spec): title, tags, the `formats` list,
the single settable primary format written by `set_format`, and the
top-level content nodes yielded by iterating the article. -/
structure MtgArticle where
  title : Option String
  tags : List String
  formats : List String
  format_ : Option String
  contents : List Content
deriving Repr

/-- `FormatHandler.check_format_in_title`: `None` on a null title, otherwise
the unique canonical format occurring in the lower-cased title, or `None`
when zero or several occur. -/
def checkFormatInTitle : Option String → Option String
  | none => none
  | some title =>
      let formatsInTitle :=
        MTGFORMATS.filter
          (fun f => isSubstring f.toList (lowerString title).toList)
      match formatsInTitle with
      | [f] => some f
      | _ => none

/-- The per-format occurrence counts of `process_block`:
`[block.text.lower().count(f) for f in MTGFORMATS.__args__]`. -/
def blockCounts (text : String) : List Nat :=
  MTGFORMATS.map (fun f => countOcc f.toList (lowerString text).toList)

/-- `FormatHandler.process_block`. -/
def processBlock (sit : Bool) (b : MtgBlock) (kf : KF) (fmt : Option String) :
    MtgBlock × KF :=
  match fmt with
  | some f => ({ b with format_ := some f }, kf)
  | none =>
      if sit then
        let occ := blockCounts b.text
        if occ.sum = 0 then (b, kf)
        else
          let f := MTGFORMATS.getD (argmax occ) ""
          ({ b with format_ := some f }, incr kf f)
      else (b, kf)

/-- `FormatHandler.process_decklist`. -/
def processDecklist (d : Decklist) (kf : KF) (fmt : Option String) :
    Decklist × KF :=
  match d.format_ with
  | none => ({ format_ := fmt }, kf)
  | some f => (d, incr kf f)

mutual

/-- `FormatHandler.process_content`: dispatch on the node kind. The section
case inlines `FormatHandler.process_section`: with an override, stamp it and
recurse; without one, match the section's own title, stamp the (possibly
null) result, count it when non-null, and recurse with it as the children's
override. The section's pre-existing `format_` is never read. -/
def processContent (sit : Bool) (c : Content) (kf : KF) (fmt : Option String) :
    Content × KF :=
  match c with
  | .section_ title _ children =>
      match fmt with
      | some f =>
          let (children', kf') := processList sit children kf (some f)
          (.section_ title (some f) children', kf')
      | none =>
          let fm := checkFormatInTitle title
          let kf1 := match fm with
            | some f => incr kf f
            | none => kf
          let (children', kf') := processList sit children kf1 fm
          (.section_ title fm children', kf')
  | .block b =>
      let (b', kf') := processBlock sit b kf fmt
      (.block b', kf')
  | .decklist d =>
      let (d', kf') := processDecklist d kf fmt
      (.decklist d', kf')

/-- The `for content in ...` loops: process a list of siblings left to right,
threading the accumulator. -/
def processList (sit : Bool) (cs : List Content) (kf : KF)
    (fmt : Option String) : List Content × KF :=
  match cs with
  | [] => ([], kf)
  | c :: rest =>
      let (c', kf') := processContent sit c kf fmt
      let (rest', kf'') := processList sit rest kf' fmt
      (c' :: rest', kf'')

end

/-- The tag-derived formats:
`[tag.lower() for tag in article.tags if tag.lower() in MTGFORMATS.__args__]`. -/
def tagFormats (a : MtgArticle) : List String :=
  (a.tags.map lowerString).filter (fun t => MTGFORMATS.contains t)

/-- The `priority_format` of `process_article`: the single tag-derived format
when there is exactly one, otherwise the title-match result. -/
def priorityFormat (a : MtgArticle) : Option String :=
  match tagFormats a with
  | [f] => some f
  | _ => checkFormatInTitle a.title

/-- The traversal phase of `process_article`: all top-level children, seeded
accumulator, priority format as override. -/
def articleTraversal (sit : Bool) (a : MtgArticle) : List Content × KF :=
  processList sit a.contents (seedKF (tagFormats a)) (priorityFormat a)

/-- `FormatHandler.process_article`: traverse, copy the accumulator's keys to
`article.formats`, and, only when no priority format exists, run the
unanimity vote (`argmax` count equal to the total) to set the article's
primary format. -/
def processArticle (sit : Bool) (a : MtgArticle) : MtgArticle :=
  let (contents', kf) := articleTraversal sit a
  let a1 := { a with contents := contents', formats := keysOf kf }
  match priorityFormat a with
  | some _ => a1
  | none =>
      let occ := kf.map Prod.snd
      if occ.sum = 0 then a1
      else
        let i := argmax occ
        if occ.getD i 0 = occ.sum then
          { a1 with format_ := some ((keysOf kf).getD i "") }
        else a1

mutual

/-- Spec-side predicate: format `k` is observed somewhere in `c` (processed
under override `fmt`) via a section-title match, a block-text match, or a
pre-set decklist format — exactly the three sites that bump the counter. -/
def observes (sit : Bool) (c : Content) (fmt : Option String) (k : String) :
    Bool :=
  match c with
  | .section_ title _ children =>
      match fmt with
      | some f => observesList sit children (some f) k
      | none =>
          let fm := checkFormatInTitle title
          fm == some k || observesList sit children fm k
  | .block b =>
      match fmt with
      | some _ => false
      | none =>
          sit && decide ((blockCounts b.text).sum ≠ 0) &&
            MTGFORMATS.getD (argmax (blockCounts b.text)) "" == k
  | .decklist d => d.format_ == some k

/-- `observes` over a list of siblings. -/
def observesList (sit : Bool) (cs : List Content) (fmt : Option String)
    (k : String) : Bool :=
  match cs with
  | [] => false
  | c :: rest => observes sit c fmt k || observesList sit rest fmt k

end

mutual

/-- The tree contains no decklist node. -/
def noDecklist : Content → Bool
  | .section_ _ _ children => noDecklistList children
  | .block _ => true
  | .decklist _ => false

/-- `noDecklist` over a list of siblings. -/
def noDecklistList : List Content → Bool
  | [] => true
  | c :: rest => noDecklist c && noDecklistList rest

end

/-! ## Lemmas about `listMax` and `argmax` -/

theorem listMax_nil : listMax [] = 0 := rfl

theorem listMax_cons (x : Nat) (xs : List Nat) :
    listMax (x :: xs) = max x (listMax xs) := rfl

theorem listMax_le_iff {l : List Nat} {n : Nat} :
    listMax l ≤ n ↔ ∀ a ∈ l, a ≤ n := by
  induction l with
  | nil => simp [listMax]
  | cons x xs ih => simp [listMax_cons, ih]

theorem le_listMax_of_mem {l : List Nat} {a : Nat} (h : a ∈ l) : a ≤ listMax l :=
  listMax_le_iff.mp (Nat.le_refl _) a h

theorem listMax_mem {l : List Nat} (h : l ≠ []) : listMax l ∈ l := by
  induction l with
  | nil => exact absurd rfl h
  | cons x xs ih =>
      by_cases hx : xs = []
      · subst hx; simp [listMax]
      · rcases Nat.le_total (listMax xs) x with hle | hle
        · simp [listMax_cons, Nat.max_eq_left hle]
        · rw [listMax_cons, Nat.max_eq_right hle]
          exact List.mem_cons_of_mem _ (ih hx)

theorem argmax_eq_findIdx {l : List Nat} (h : l ≠ []) :
    argmax l = l.findIdx (fun x => x == listMax l) := by
  induction l with
  | nil => exact absurd rfl h
  | cons x xs ih =>
      by_cases hx : xs = []
      · subst hx; simp [argmax, listMax, List.findIdx_cons]
      · by_cases hall : ∀ y ∈ xs, y ≤ x
        · have hmax : listMax (x :: xs) = x := by
            rw [listMax_cons, Nat.max_eq_left (listMax_le_iff.mpr hall)]
          have hcond : (xs.all fun y => decide (y ≤ x)) = true := by
            simpa [List.all_eq_true] using hall
          simp [argmax, hcond, hmax, List.findIdx_cons]
        · push_neg at hall
          obtain ⟨y, hy, hxy⟩ := hall
          have hlt : x < listMax xs := Nat.lt_of_lt_of_le hxy (le_listMax_of_mem hy)
          have hmax : listMax (x :: xs) = listMax xs := by
            rw [listMax_cons, Nat.max_eq_right (Nat.le_of_lt hlt)]
          have hne : (x == listMax (x :: xs)) = false := by
            simp [hmax]; omega
          have hfalse : ¬ (xs.all fun y => decide (y ≤ x)) = true := by
            simp [List.all_eq_true]
            exact ⟨y, hy, hxy⟩
          rw [hmax] at hne
          simp only [argmax, if_neg hfalse, List.findIdx_cons, hmax, hne, cond_false]
          rw [ih hx]

theorem argmax_lt_length {l : List Nat} (h : l ≠ []) : argmax l < l.length := by
  rw [argmax_eq_findIdx h]
  exact List.findIdx_lt_length_of_exists
    ⟨listMax l, listMax_mem h, by simp⟩

theorem getD_argmax {l : List Nat} (h : l ≠ []) : l.getD (argmax l) 0 = listMax l := by
  have hlt : l.findIdx (fun x => x == listMax l) < l.length := by
    rw [← argmax_eq_findIdx h]; exact argmax_lt_length h
  rw [argmax_eq_findIdx h, List.getD_eq_getElem _ _ hlt]
  have := @List.findIdx_getElem _ (fun x => x == listMax l) l hlt
  simpa using this

theorem findIdx_map_eq (f : α → β) (p : β → Bool) (l : List α) :
    (l.map f).findIdx p = l.findIdx (fun a => p (f a)) := by
  induction l with
  | nil => rfl
  | cons a t ih => simp [List.findIdx_cons, ih]

theorem find?_eq_some_getD_findIdx {l : List α} {p : α → Bool} (d : α)
    (h : l.findIdx p < l.length) :
    l.find? p = some (l.getD (l.findIdx p) d) := by
  induction l with
  | nil => simp at h
  | cons a t ih =>
      by_cases hp : p a
      · simp [List.find?_cons_of_pos _ hp, List.findIdx_cons, hp]
      · have hfi : (a :: t).findIdx p = t.findIdx p + 1 := by
          simp [List.findIdx_cons, hp]
        rw [List.find?_cons_of_neg _ hp, hfi]
        have ht : t.findIdx p < t.length := by
          rw [hfi] at h; simpa using h
        simpa using ih ht

/-! ## Lemmas about the accumulator operations -/

theorem countOf_incr_self (kf : KF) (k : String) :
    countOf (incr kf k) k = countOf kf k + 1 := by
  induction kf with
  | nil => simp [incr, countOf, List.lookup]
  | cons p rest ih =>
      obtain ⟨k', v⟩ := p
      by_cases hk : k' = k
      · subst hk; simp [incr, countOf, List.lookup]
      · have h1 : (k' == k) = false := by simp [hk]
        have h2 : (k == k') = false := by simp [Ne.symm hk]
        simp [incr, countOf, List.lookup, h1, h2] at ih ⊢
        exact ih

theorem countOf_incr_other (kf : KF) (k g : String) (h : g ≠ k) :
    countOf (incr kf k) g = countOf kf g := by
  induction kf with
  | nil =>
      have h2 : (g == k) = false := by simp [h]
      simp [incr, countOf, List.lookup, h2]
  | cons p rest ih =>
      obtain ⟨k', v⟩ := p
      by_cases hk : k' = k
      · subst hk
        have h2 : (g == k') = false := by simp [h]
        simp [incr, countOf, List.lookup, h2]
      · have h1 : (k' == k) = false := by simp [hk]
        by_cases hg : g = k'
        · subst hg; simp [incr, countOf, List.lookup, h1]
        · have h2 : (g == k') = false := by simp [hg]
          simp [incr, countOf, List.lookup, h1, h2] at ih ⊢
          exact ih

theorem keysOf_incr (kf : KF) (k : String) :
    keysOf (incr kf k) = if k ∈ keysOf kf then keysOf kf else keysOf kf ++ [k] := by
  induction kf with
  | nil => simp [incr, keysOf]
  | cons p rest ih =>
      obtain ⟨k', v⟩ := p
      by_cases hk : k' = k
      · subst hk; simp [incr, keysOf]
      · have h1 : (k' == k) = false := by simp [hk]
        have hstep : keysOf (incr ((k', v) :: rest) k) = k' :: keysOf (incr rest k) := by
          simp [incr, h1, keysOf]
        have hmem : (k ∈ keysOf ((k', v) :: rest)) ↔ k ∈ keysOf rest := by
          simp [keysOf, Ne.symm hk]
        by_cases hm : k ∈ keysOf rest
        · rw [if_pos (hmem.mpr hm), hstep, ih, if_pos hm]
          simp [keysOf]
        · rw [if_neg (fun hc => hm (hmem.mp hc)), hstep, ih, if_neg hm]
          simp [keysOf]

theorem mem_keysOf_incr {kf : KF} {k g : String} :
    g ∈ keysOf (incr kf k) ↔ g ∈ keysOf kf ∨ g = k := by
  rw [keysOf_incr]
  by_cases hm : k ∈ keysOf kf
  · simp only [if_pos hm]
    constructor
    · exact Or.inl
    · rintro (h | rfl)
      · exact h
      · exact hm
  · simp [if_neg hm, or_comm]

theorem mem_keysOf_setdefault0 {kf : KF} {k g : String} :
    g ∈ keysOf (setdefault0 kf k) ↔ g ∈ keysOf kf ∨ g = k := by
  induction kf with
  | nil => simp [setdefault0, keysOf]
  | cons p rest ih =>
      obtain ⟨k', v⟩ := p
      by_cases hk : k' = k
      · subst hk
        simp [setdefault0, keysOf]
        rintro rfl
        exact Or.inl rfl
      · have h1 : (k' == k) = false := by simp [hk]
        simp [setdefault0, keysOf, h1] at ih ⊢
        rw [or_assoc]
        constructor
        · rintro (h | h)
          · exact Or.inl h
          · exact Or.inr (by simpa [keysOf] using ih.mp (by simpa [keysOf] using h))
        · rintro (h | h)
          · exact Or.inl h
          · exact Or.inr (by simpa [keysOf] using ih.mpr (by simpa [keysOf] using h))

theorem mem_keysOf_seedKF_aux (fs : List String) (kf0 : KF) (k : String) :
    k ∈ keysOf (fs.foldl setdefault0 kf0) ↔ k ∈ keysOf kf0 ∨ k ∈ fs := by
  induction fs generalizing kf0 with
  | nil => simp
  | cons f rest ih =>
      simp only [List.foldl_cons, ih, mem_keysOf_setdefault0, List.mem_cons]
      tauto

theorem mem_keysOf_seedKF {fs : List String} {k : String} :
    k ∈ keysOf (seedKF fs) ↔ k ∈ fs := by
  rw [seedKF, mem_keysOf_seedKF_aux]
  simp [keysOf]

/-! ## The title matcher -/

theorem filter_eq_singleton_iff {α : Type} {l : List α} {p : α → Bool}
    (hnd : l.Nodup) (f : α) :
    l.filter p = [f] ↔
      f ∈ l ∧ p f = true ∧ ∀ g ∈ l, p g = true → g = f := by
  induction l with
  | nil => simp
  | cons a t ih =>
      obtain ⟨ha, ht⟩ := List.nodup_cons.mp hnd
      by_cases hp : p a = true
      · rw [List.filter_cons_of_pos hp,
          show (a :: t.filter p = [f]) ↔ (a = f ∧ t.filter p = []) by simp,
          List.filter_eq_nil_iff]
        constructor
        · rintro ⟨rfl, hnone⟩
          refine ⟨List.mem_cons_self _ _, hp, ?_⟩
          intro g hg hpg
          rcases List.mem_cons.mp hg with rfl | hgt
          · rfl
          · exact absurd hpg (hnone g hgt)
        · rintro ⟨hf, hpf, huniq⟩
          have haf : a = f := huniq a (List.mem_cons_self _ _) hp
          subst haf
          refine ⟨rfl, ?_⟩
          intro g hg hpg
          have hga : g = a := huniq g (List.mem_cons_of_mem _ hg) hpg
          exact ha (hga ▸ hg)
      · have hp' : p a = false := by simpa using hp
        rw [List.filter_cons_of_neg (by simp [hp']), ih ht]
        constructor
        · rintro ⟨hf, hpf, huniq⟩
          refine ⟨List.mem_cons_of_mem _ hf, hpf, ?_⟩
          intro g hg hpg
          rcases List.mem_cons.mp hg with rfl | hgt
          · rw [hp'] at hpg; cases hpg
          · exact huniq g hgt hpg
        · rintro ⟨hf, hpf, huniq⟩
          have hft : f ∈ t := by
            rcases List.mem_cons.mp hf with rfl | h
            · rw [hp'] at hpf; cases hpf
            · exact h
          exact ⟨hft, hpf, fun g hg hpg => huniq g (List.mem_cons_of_mem _ hg) hpg⟩

theorem checkFormatInTitle_eq_some_iff (t : String) (f : String) :
    checkFormatInTitle (some t) = some f ↔
      MTGFORMATS.filter
        (fun g => isSubstring g.toList (lowerString t).toList) = [f] := by
  have hdef : checkFormatInTitle (some t)
      = match MTGFORMATS.filter
            (fun g => isSubstring g.toList (lowerString t).toList) with
        | [f] => some f
        | _ => none := rfl
  rw [hdef]
  generalize MTGFORMATS.filter
      (fun g => isSubstring g.toList (lowerString t).toList) = fl
  rcases fl with _ | ⟨a, _ | ⟨b, l2⟩⟩ <;> simp

/-- C5: `check_format_in_title` returns null when the title is null; on a
non-null title it returns the unique canonical format whose name occurs in
the lower-cased title when exactly one of the six does, and null when zero
or two-or-more occur. -/
theorem check_format_in_title_correct (title : Option String) :
    (title = none → checkFormatInTitle title = none) ∧
    ∀ t, title = some t →
      (∀ f, checkFormatInTitle title = some f ↔
          (f ∈ MTGFORMATS ∧ isSubstring f.toList (lowerString t).toList = true ∧
            ∀ g ∈ MTGFORMATS,
              isSubstring g.toList (lowerString t).toList = true → g = f)) ∧
      (checkFormatInTitle title = none ↔
        ¬ ∃ f, f ∈ MTGFORMATS ∧
            isSubstring f.toList (lowerString t).toList = true ∧
            ∀ g ∈ MTGFORMATS,
              isSubstring g.toList (lowerString t).toList = true → g = f) := by
  constructor
  · rintro rfl; rfl
  · rintro t rfl
    have hnd : MTGFORMATS.Nodup := by decide
    have hmain : ∀ f, checkFormatInTitle (some t) = some f ↔
        (f ∈ MTGFORMATS ∧ isSubstring f.toList (lowerString t).toList = true ∧
          ∀ g ∈ MTGFORMATS,
            isSubstring g.toList (lowerString t).toList = true → g = f) := by
      intro f
      rw [checkFormatInTitle_eq_some_iff]
      exact filter_eq_singleton_iff hnd f
    refine ⟨hmain, ?_⟩
    cases hres : checkFormatInTitle (some t) with
    | none =>
        constructor
        · rintro - ⟨f, hf⟩
          have hcontr := (hmain f).mpr hf
          rw [hres] at hcontr
          exact Option.noConfusion hcontr
        · intro _; rfl
    | some f =>
        constructor
        · intro h; exact Option.noConfusion h
        · intro hne
          exact absurd ⟨f, (hmain f).mp hres⟩ hne

theorem check_format_in_title_correct_witness :
    (some "Pioneer Deck Tech" : Option String) = some "Pioneer Deck Tech" ∧
    checkFormatInTitle (some "Pioneer Deck Tech") = some "pioneer" :=
  ⟨rfl,
    (((check_format_in_title_correct (some "Pioneer Deck Tech")).2
        "Pioneer Deck Tech" rfl).1 "pioneer").mpr (by decide)⟩

/-- C6: with exactly one tag-derived format the priority format is that tag
format and the title is never consulted; with zero or several tag-derived
formats the priority format is the title-match result on the article title. -/
theorem priority_format_from_tags (a : MtgArticle) :
    (∀ f, tagFormats a = [f] → priorityFormat a = some f) ∧
    ((tagFormats a).length ≠ 1 →
      priorityFormat a = checkFormatInTitle a.title) := by
  constructor
  · intro f h
    simp [priorityFormat, h]
  · intro h
    unfold priorityFormat
    rcases hf : tagFormats a with _ | ⟨x, _ | ⟨y, l⟩⟩
    · rfl
    · rw [hf] at h; simp at h
    · rfl

/-- Witness article for C6: one tag-derived format, title matching another. -/
def taggedArticle : MtgArticle :=
  { title := some "pioneer night", tags := ["Standard"], formats := [],
    format_ := none, contents := [] }

theorem priority_format_from_tags_witness :
    tagFormats taggedArticle = ["standard"] ∧
    checkFormatInTitle (some "pioneer night") = some "pioneer" ∧
    priorityFormat taggedArticle = some "standard" :=
  ⟨rfl, rfl,
    (priority_format_from_tags taggedArticle).1 "standard" rfl⟩

/-- C7: a decklist with a pre-existing format keeps it and its count is
incremented (entry created if absent), whatever the override; a decklist
with no format is assigned the (possibly null) override and no count is
incremented. -/
theorem process_decklist_correct (d : Decklist) (kf : KF) (fmt : Option String) :
    (∀ f, d.format_ = some f →
      (processDecklist d kf fmt).1 = d ∧
      countOf (processDecklist d kf fmt).2 f = countOf kf f + 1 ∧
      (∀ g, g ≠ f → countOf (processDecklist d kf fmt).2 g = countOf kf g) ∧
      f ∈ keysOf (processDecklist d kf fmt).2) ∧
    (d.format_ = none → processDecklist d kf fmt = ({ format_ := fmt }, kf)) := by
  constructor
  · intro f hf
    have hd : processDecklist d kf fmt = (d, incr kf f) := by
      unfold processDecklist; rw [hf]
    rw [hd]
    exact ⟨rfl, countOf_incr_self kf f, fun g hg => countOf_incr_other kf f g hg,
      mem_keysOf_incr.mpr (Or.inr rfl)⟩
  · intro hf
    unfold processDecklist; rw [hf]

theorem process_decklist_correct_witness :
    (⟨some "alchemy"⟩ : Decklist).format_ = some "alchemy" ∧
    (processDecklist ⟨some "alchemy"⟩ [("standard", 2)] (some "standard")).1
      = ⟨some "alchemy"⟩ ∧
    countOf (processDecklist ⟨some "alchemy"⟩ [("standard", 2)]
        (some "standard")).2 "alchemy" = 1 :=
  ⟨rfl,
    ((process_decklist_correct ⟨some "alchemy"⟩ [("standard", 2)]
        (some "standard")).1 "alchemy" rfl).1,
    by
      have h := ((process_decklist_correct ⟨some "alchemy"⟩ [("standard", 2)]
        (some "standard")).1 "alchemy" rfl).2.1
      rw [h]
      rfl⟩

/-- C9: a non-null override is stamped onto the block and processing stops:
the text is never searched and the accumulator is left unchanged, for either
`search_in_text` setting. -/
theorem process_block_override (sit : Bool) (b : MtgBlock) (kf : KF)
    (f : String) :
    processBlock sit b kf (some f) = ({ b with format_ := some f }, kf) := rfl

/-- C10: `process_section` unconditionally overwrites the section's format
(with the override if any, otherwise with its own title-match result); the
pre-existing `format_` value is discarded and has no effect on the result,
in particular it is never counted. -/
theorem process_section_overwrites (sit : Bool) (title : Option String)
    (f0 f0' : Option String) (children : List Content) (kf : KF)
    (fmt : Option String) :
    processContent sit (.section_ title f0 children) kf fmt
      = processContent sit (.section_ title f0' children) kf fmt ∧
    ∃ ch', (processContent sit (.section_ title f0 children) kf fmt).1
      = .section_ title
          (match fmt with
            | some f => some f
            | none => checkFormatInTitle title) ch' := by
  constructor
  · rfl
  · cases fmt with
    | some f =>
        rcases hpl : processList sit children kf (some f) with ⟨c', k'⟩
        exact ⟨c', by simp [processContent, hpl]⟩
    | none =>
        cases hfm : checkFormatInTitle title with
        | none =>
            rcases hpl : processList sit children kf none with ⟨c', k'⟩
            exact ⟨c', by simp [processContent, hfm, hpl]⟩
        | some f =>
            rcases hpl : processList sit children (incr kf f) (some f)
              with ⟨c', k'⟩
            exact ⟨c', by simp [processContent, hfm, hpl]⟩

theorem getD_map_fst (kf : KF) (i : Nat) (h : i < kf.length) :
    (kf.map Prod.fst).getD i "" = (kf.getD i ("", 0)).1 := by
  have h2 : i < (kf.map Prod.fst).length := by simpa using h
  rw [List.getD_eq_getElem _ _ h2, List.getD_eq_getElem _ _ h, List.getElem_map]

/-- C8: with no override and `search_in_text` off the block is unchanged;
with it on, the per-format substring counts of the lower-cased text decide:
a zero total leaves the block unchanged, otherwise the first canonical
format (in vocabulary order) attaining the maximum count is stamped on the
block and its count incremented in the accumulator. -/
theorem process_block_text_search (b : MtgBlock) (kf : KF) :
    processBlock false b kf none = (b, kf) ∧
    ((blockCounts b.text).sum = 0 → processBlock true b kf none = (b, kf)) ∧
    ((blockCounts b.text).sum ≠ 0 →
      ∃ f, MTGFORMATS.find?
          (fun g => countOcc g.toList (lowerString b.text).toList
            == listMax (blockCounts b.text)) = some f ∧
        processBlock true b kf none
          = ({ b with format_ := some f }, incr kf f)) := by
  refine ⟨rfl, ?_, ?_⟩
  · intro h
    simp [processBlock, h]
  · intro h
    have hne : blockCounts b.text ≠ [] := by
      intro hc
      rw [hc] at h
      exact h rfl
    have hidx : argmax (blockCounts b.text)
        = MTGFORMATS.findIdx
            (fun g => countOcc g.toList (lowerString b.text).toList
              == listMax (blockCounts b.text)) := by
      rw [argmax_eq_findIdx hne]
      rw [show blockCounts b.text
        = MTGFORMATS.map
            (fun f => countOcc f.toList (lowerString b.text).toList) from rfl,
        findIdx_map_eq]
    have hlen : (blockCounts b.text).length = MTGFORMATS.length := by
      simp [blockCounts]
    have hbound : MTGFORMATS.findIdx
        (fun g => countOcc g.toList (lowerString b.text).toList
          == listMax (blockCounts b.text)) < MTGFORMATS.length := by
      rw [← hidx, ← hlen]
      exact argmax_lt_length hne
    refine ⟨MTGFORMATS.getD (argmax (blockCounts b.text)) "", ?_, ?_⟩
    · rw [find?_eq_some_getD_findIdx "" hbound, hidx]
    · simp [processBlock, h]

theorem process_block_text_search_witness :
    (blockCounts "hello").sum = 0 ∧
    processBlock true ⟨"hello", none⟩ [] none = (⟨"hello", none⟩, []) ∧
    (blockCounts "Standard standard pioneer").sum ≠ 0 ∧
    processBlock true ⟨"Standard standard pioneer", none⟩ [] none
      = (⟨"Standard standard pioneer", some "standard"⟩, [("standard", 1)]) := by
  refine ⟨rfl, (process_block_text_search ⟨"hello", none⟩ []).2.1 rfl,
    by decide, ?_⟩
  obtain ⟨f, hf, hres⟩ :=
    (process_block_text_search ⟨"Standard standard pioneer", none⟩ []).2.2
      (by decide)
  have hfs : f = "standard" := by
    have hsome : (some "standard" : Option String) = some f := by
      rw [← hf]
      rfl
    exact (Option.some.inj hsome).symm
  rw [hres, hfs]
  rfl

/-- The article of the end-to-end C2 scenario: no tags, title
"Pioneer Deck Tech", one untitled child section holding one text block. -/
def pioneerArticle : MtgArticle :=
  { title := some "Pioneer Deck Tech", tags := [], formats := [],
    format_ := none,
    contents := [.section_ none none [.block ⟨"this is a pioneer list", none⟩]] }

/-- C2: on `pioneerArticle` with `search_in_text` on, the title match becomes
the priority format, the section and block are stamped "pioneer" as uncounted
overrides, the accumulator stays empty, the canonical format stays unset and
`article.formats` ends empty. -/
theorem pioneer_article_end_to_end :
    priorityFormat pioneerArticle = some "pioneer" ∧
    (articleTraversal true pioneerArticle).2 = [] ∧
    processArticle true pioneerArticle =
      { title := some "Pioneer Deck Tech", tags := [], formats := [],
        format_ := none,
        contents := [.section_ none (some "pioneer")
          [.block ⟨"this is a pioneer list", some "pioneer"⟩]] } :=
  ⟨rfl, rfl, rfl⟩

/-- C1: the article's canonical-format field is set exactly when the priority
format is null, the accumulator's total count is positive and the maximum
count equals the total (unanimity); in that case it becomes the first key of
the accumulator (in key order) holding the maximum count, and otherwise —
including whenever a priority format exists — the field keeps its input
value. -/
theorem process_article_canonical_format (sit : Bool) (a : MtgArticle) :
    (processArticle sit a).format_ =
      if priorityFormat a = none ∧
          ((articleTraversal sit a).2.map Prod.snd).sum ≠ 0 ∧
          listMax ((articleTraversal sit a).2.map Prod.snd)
            = ((articleTraversal sit a).2.map Prod.snd).sum
      then ((articleTraversal sit a).2.find?
          (fun p => p.2 == listMax ((articleTraversal sit a).2.map Prod.snd))).map
            Prod.fst
      else a.format_ := by
  rcases hT : articleTraversal sit a with ⟨cs, kf⟩
  cases hq : priorityFormat a with
  | some f =>
      have hpa : processArticle sit a
          = { a with contents := cs, formats := keysOf kf } := by
        simp [processArticle, hT, hq]
      rw [hpa]
      simp [hq]
  | none =>
      by_cases hs : (kf.map Prod.snd).sum = 0
      · have hpa : processArticle sit a
            = { a with contents := cs, formats := keysOf kf } := by
          simp [processArticle, hT, hq, hs]
        rw [hpa]
        simp [hs]
      · have hne : kf.map Prod.snd ≠ [] := by
          intro hc
          rw [hc] at hs
          exact hs rfl
        have hgd : (kf.map Prod.snd).getD (argmax (kf.map Prod.snd)) 0
            = listMax (kf.map Prod.snd) := getD_argmax hne
        by_cases hm : listMax (kf.map Prod.snd) = (kf.map Prod.snd).sum
        · have hgd' : (Option.map Prod.snd (kf[argmax (List.map Prod.snd kf)]?)).getD 0
              = listMax (kf.map Prod.snd) := by simpa using hgd
          have hpa : processArticle sit a
              = { a with contents := cs, formats := keysOf kf, format_ := some ((keysOf kf).getD (argmax (kf.map Prod.snd)) "") } := by
            simp [processArticle, hT, hq, hs, hgd', hm]
          rw [hpa]
          rw [if_pos ⟨rfl, hs, hm⟩]
          have hidx : argmax (kf.map Prod.snd)
              = kf.findIdx (fun p => p.2 == listMax (kf.map Prod.snd)) := by
            rw [argmax_eq_findIdx hne, findIdx_map_eq]
          have hbound : kf.findIdx
              (fun p => p.2 == listMax (kf.map Prod.snd)) < kf.length := by
            rw [← hidx]
            have := argmax_lt_length hne
            simpa using this
          rw [find?_eq_some_getD_findIdx ("", 0) hbound]
          rw [hidx, keysOf, getD_map_fst kf _ hbound]
          rfl
        · have hmne : ¬ ((Option.map Prod.snd (kf[argmax (List.map Prod.snd kf)]?)).getD 0
              = (kf.map Prod.snd).sum) := by
            have : (Option.map Prod.snd (kf[argmax (List.map Prod.snd kf)]?)).getD 0
                = listMax (kf.map Prod.snd) := by simpa using hgd
            rw [this]
            exact hm
          have hpa : processArticle sit a
              = { a with contents := cs, formats := keysOf kf } := by
            simp [processArticle, hT, hq, hs, hmne]
          rw [hpa]
          simp [hm]

/-! ## Shape of the processed article -/

theorem processArticle_shape (sit : Bool) (a : MtgArticle) :
    ∃ fm, processArticle sit a
      = { a with contents := (articleTraversal sit a).1, formats := keysOf (articleTraversal sit a).2, format_ := fm } := by
  rcases hT : articleTraversal sit a with ⟨cs, kf⟩
  cases hq : priorityFormat a with
  | some f =>
      refine ⟨a.format_, ?_⟩
      simp [processArticle, hT, hq]
  | none =>
      by_cases hs : (kf.map Prod.snd).sum = 0
      · refine ⟨a.format_, ?_⟩
        simp [processArticle, hT, hq, hs]
      · by_cases hcond : (Option.map Prod.snd (kf[argmax (List.map Prod.snd kf)]?)).getD 0
            = (kf.map Prod.snd).sum
        · refine ⟨some ((keysOf kf).getD (argmax (kf.map Prod.snd)) ""), ?_⟩
          simp [processArticle, hT, hq, hs, hcond]
        · refine ⟨a.format_, ?_⟩
          simp [processArticle, hT, hq, hs, hcond]

theorem processArticle_title (sit : Bool) (a : MtgArticle) :
    (processArticle sit a).title = a.title := by
  obtain ⟨fm, h⟩ := processArticle_shape sit a
  rw [h]

theorem processArticle_tags (sit : Bool) (a : MtgArticle) :
    (processArticle sit a).tags = a.tags := by
  obtain ⟨fm, h⟩ := processArticle_shape sit a
  rw [h]

theorem processArticle_contents (sit : Bool) (a : MtgArticle) :
    (processArticle sit a).contents = (articleTraversal sit a).1 := by
  obtain ⟨fm, h⟩ := processArticle_shape sit a
  rw [h]

theorem processArticle_formats (sit : Bool) (a : MtgArticle) :
    (processArticle sit a).formats = keysOf (articleTraversal sit a).2 := by
  obtain ⟨fm, h⟩ := processArticle_shape sit a
  rw [h]

/-! ## Origin of the accumulator keys -/

mutual

theorem keys_origin_content (sit : Bool) (c : Content) (kf : KF)
    (fmt : Option String) (k : String)
    (h : k ∈ keysOf (processContent sit c kf fmt).2) :
    k ∈ keysOf kf ∨ observes sit c fmt k = true := by
  match c with
  | .section_ title f0 children =>
      cases fmt with
      | some f =>
          rcases hpl : processList sit children kf (some f) with ⟨c', k'⟩
          simp only [processContent, hpl] at h
          rcases keys_origin_list sit children kf (some f) k
              (by rw [hpl]; exact h) with hl | hr
          · exact Or.inl hl
          · exact Or.inr (by simp [observes, hr])
      | none =>
          cases hfm : checkFormatInTitle title with
          | none =>
              rcases hpl : processList sit children kf none with ⟨c', k'⟩
              simp only [processContent, hfm, hpl] at h
              rcases keys_origin_list sit children kf none k
                  (by rw [hpl]; exact h) with hl | hr
              · exact Or.inl hl
              · exact Or.inr (by simp [observes, hfm, hr])
          | some f =>
              rcases hpl : processList sit children (incr kf f) (some f)
                with ⟨c', k'⟩
              simp only [processContent, hfm, hpl] at h
              rcases keys_origin_list sit children (incr kf f) (some f) k
                  (by rw [hpl]; exact h) with hl | hr
              · rcases mem_keysOf_incr.mp hl with hl' | rfl
                · exact Or.inl hl'
                · exact Or.inr (by simp [observes, hfm])
              · exact Or.inr (by simp [observes, hfm, hr])
  | .block b =>
      cases fmt with
      | some f =>
          simp only [processContent, processBlock] at h
          exact Or.inl h
      | none =>
          cases sit with
          | false =>
              simp only [processContent, processBlock] at h
              exact Or.inl h
          | true =>
              by_cases hs : (blockCounts b.text).sum = 0
              · simp only [processContent, processBlock, if_pos hs] at h
                simp only [if_true] at h
                exact Or.inl h
              · simp only [processContent, processBlock, if_neg hs] at h
                simp only [if_true] at h
                rcases mem_keysOf_incr.mp h with hl | rfl
                · exact Or.inl hl
                · exact Or.inr (by simp [observes, hs])
  | .decklist d =>
      cases hd : d.format_ with
      | none =>
          simp only [processContent, processDecklist, hd] at h
          exact Or.inl h
      | some f =>
          simp only [processContent, processDecklist, hd] at h
          rcases mem_keysOf_incr.mp h with hl | rfl
          · exact Or.inl hl
          · exact Or.inr (by simp [observes, hd])

theorem keys_origin_list (sit : Bool) (cs : List Content) (kf : KF)
    (fmt : Option String) (k : String)
    (h : k ∈ keysOf (processList sit cs kf fmt).2) :
    k ∈ keysOf kf ∨ observesList sit cs fmt k = true := by
  match cs with
  | [] =>
      simp only [processList] at h
      exact Or.inl h
  | c :: rest =>
      rcases hpc : processContent sit c kf fmt with ⟨c', kf'⟩
      rcases hpl : processList sit rest kf' fmt with ⟨rest', kf''⟩
      simp only [processList, hpc, hpl] at h
      rcases keys_origin_list sit rest kf' fmt k (by rw [hpl]; exact h)
        with hl | hr
      · rcases keys_origin_content sit c kf fmt k (by rw [hpc]; exact hl)
          with hl' | hr'
        · exact Or.inl hl'
        · exact Or.inr (by simp [observesList, hr'])
      · exact Or.inr (by simp [observesList, hr])

end

/-- C4 (amended): every key present in the accumulator at the end of a run —
equivalently in the final `article.formats` — is either one of the
tag-derived formats seeded at count 0, or was actually observed via a
section-title match, a block-text match, or a pre-set decklist format. -/
theorem article_formats_from_tags_or_observed (sit : Bool) (a : MtgArticle)
    (k : String) (h : k ∈ (processArticle sit a).formats) :
    k ∈ tagFormats a ∨
      observesList sit a.contents (priorityFormat a) k = true := by
  rw [processArticle_formats] at h
  rcases keys_origin_list sit a.contents (seedKF (tagFormats a))
      (priorityFormat a) k h with hl | hr
  · exact Or.inl (mem_keysOf_seedKF.mp hl)
  · exact Or.inr hr

/-- Counterexample article for C4: a tag seeds a zero-count entry that no
title, text or decklist ever observed. -/
def zeroSeedArticle : MtgArticle :=
  { title := none, tags := ["standard"], formats := [], format_ := none,
    contents := [] }

theorem known_formats_key_unobserved :
    "standard" ∈ keysOf (articleTraversal false zeroSeedArticle).2 ∧
    countOf (articleTraversal false zeroSeedArticle).2 "standard" = 0 ∧
    observesList false zeroSeedArticle.contents
      (priorityFormat zeroSeedArticle) "standard" = false :=
  ⟨by decide, rfl, rfl⟩

/-- Witness article for C4: a decklist carrying a pre-set format. -/
def observedArticle : MtgArticle :=
  { title := none, tags := [], formats := [], format_ := none,
    contents := [.decklist ⟨some "alchemy"⟩] }

theorem article_formats_from_tags_or_observed_witness :
    "alchemy" ∈ (processArticle false observedArticle).formats ∧
    ("alchemy" ∈ tagFormats observedArticle ∨
      observesList false observedArticle.contents
        (priorityFormat observedArticle) "alchemy" = true) :=
  ⟨by decide,
    article_formats_from_tags_or_observed false observedArticle "alchemy"
      (by decide)⟩

/-! ## Idempotence of the traversal on decklist-free trees -/

mutual

theorem noDecklist_preserved (sit : Bool) (c : Content) (kf : KF)
    (fmt : Option String) (h : noDecklist c = true) :
    noDecklist (processContent sit c kf fmt).1 = true := by
  match c with
  | .section_ title f0 children =>
      have hch : noDecklistList children = true := by
        simpa [noDecklist] using h
      cases fmt with
      | some f =>
          rcases hpl : processList sit children kf (some f) with ⟨c', k'⟩
          have := noDecklistList_preserved sit children kf (some f) hch
          rw [hpl] at this
          simp [processContent, hpl, noDecklist, this]
      | none =>
          cases hfm : checkFormatInTitle title with
          | none =>
              rcases hpl : processList sit children kf none with ⟨c', k'⟩
              have := noDecklistList_preserved sit children kf none hch
              rw [hpl] at this
              simp [processContent, hfm, hpl, noDecklist, this]
          | some f =>
              rcases hpl : processList sit children (incr kf f) (some f)
                with ⟨c', k'⟩
              have := noDecklistList_preserved sit children (incr kf f)
                (some f) hch
              rw [hpl] at this
              simp [processContent, hfm, hpl, noDecklist, this]
  | .block b =>
      rcases hpb : processBlock sit b kf fmt with ⟨b', k'⟩
      simp [processContent, hpb, noDecklist]
  | .decklist d => simp [noDecklist] at h

theorem noDecklistList_preserved (sit : Bool) (cs : List Content) (kf : KF)
    (fmt : Option String) (h : noDecklistList cs = true) :
    noDecklistList (processList sit cs kf fmt).1 = true := by
  match cs with
  | [] => simp [processList, noDecklistList]
  | c :: rest =>
      have hc : noDecklist c = true ∧ noDecklistList rest = true := by
        simpa [noDecklistList, Bool.and_eq_true] using h
      rcases hpc : processContent sit c kf fmt with ⟨c', kf'⟩
      rcases hpl : processList sit rest kf' fmt with ⟨rest', kf''⟩
      have h1 := noDecklist_preserved sit c kf fmt hc.1
      rw [hpc] at h1
      have h2 := noDecklistList_preserved sit rest kf' fmt hc.2
      rw [hpl] at h2
      simp [processList, hpc, hpl, noDecklistList, h1, h2]

end

mutual

theorem processContent_idem (sit : Bool) (c : Content) (kf : KF)
    (fmt : Option String) (h : noDecklist c = true) :
    processContent sit (processContent sit c kf fmt).1 kf fmt
      = processContent sit c kf fmt := by
  match c with
  | .section_ title f0 children =>
      have hch : noDecklistList children = true := by
        simpa [noDecklist] using h
      cases fmt with
      | some f =>
          rcases hpl : processList sit children kf (some f) with ⟨c', k'⟩
          have hid := processList_idem sit children kf (some f) hch
          rw [hpl] at hid
          simp [processContent, hpl, hid]
      | none =>
          cases hfm : checkFormatInTitle title with
          | none =>
              rcases hpl : processList sit children kf none with ⟨c', k'⟩
              have hid := processList_idem sit children kf none hch
              rw [hpl] at hid
              simp [processContent, hfm, hpl, hid]
          | some f =>
              rcases hpl : processList sit children (incr kf f) (some f)
                with ⟨c', k'⟩
              have hid := processList_idem sit children (incr kf f) (some f) hch
              rw [hpl] at hid
              simp [processContent, hfm, hpl, hid]
  | .block b =>
      cases fmt with
      | some f => simp [processContent, processBlock]
      | none =>
          cases sit with
          | false => simp [processContent, processBlock]
          | true =>
              by_cases hs : (blockCounts b.text).sum = 0
              · simp [processContent, processBlock, hs]
              · simp [processContent, processBlock, hs]
  | .decklist d => simp [noDecklist] at h

theorem processList_idem (sit : Bool) (cs : List Content) (kf : KF)
    (fmt : Option String) (h : noDecklistList cs = true) :
    processList sit (processList sit cs kf fmt).1 kf fmt
      = processList sit cs kf fmt := by
  match cs with
  | [] => simp [processList]
  | c :: rest =>
      have hc : noDecklist c = true ∧ noDecklistList rest = true := by
        simpa [noDecklistList, Bool.and_eq_true] using h
      rcases hpc : processContent sit c kf fmt with ⟨c', kf'⟩
      rcases hpl : processList sit rest kf' fmt with ⟨rest', kf''⟩
      have hid1 := processContent_idem sit c kf fmt hc.1
      rw [hpc] at hid1
      have hid2 := processList_idem sit rest kf' fmt hc.2
      rw [hpl] at hid2
      simp [processList, hpc, hpl, hid1, hid2]

end

/-- C3 (amended): on an article tree containing no decklist node (the tags
are untouched by processing in any case), running `process_article` a second
time on the already-mutated tree reproduces the first run's result exactly —
in particular the same `article.formats` and the same canonical format. -/
theorem process_article_idempotent_no_decklists (sit : Bool) (a : MtgArticle)
    (h : noDecklistList a.contents = true) :
    processArticle sit (processArticle sit a) = processArticle sit a := by
  have htags := processArticle_tags sit a
  have htitle := processArticle_title sit a
  have hcont := processArticle_contents sit a
  have htagf : tagFormats (processArticle sit a) = tagFormats a := by
    simp [tagFormats, htags]
  have hprio : priorityFormat (processArticle sit a) = priorityFormat a := by
    simp only [priorityFormat, htagf, htitle]
  rcases hT : articleTraversal sit a with ⟨cs, kf⟩
  have hTT : processList sit a.contents (seedKF (tagFormats a))
      (priorityFormat a) = (cs, kf) := hT
  have htrav : articleTraversal sit (processArticle sit a) = (cs, kf) := by
    unfold articleTraversal
    rw [hcont, htagf, hprio, hT]
    have hidem := processList_idem sit a.contents (seedKF (tagFormats a))
      (priorityFormat a) h
    rw [hTT] at hidem
    simpa using hidem
  obtain ⟨r1, hr1d⟩ : ∃ r1, processArticle sit a = r1 := ⟨_, rfl⟩
  rw [hr1d] at htrav hprio
  rw [hr1d]
  cases hq : priorityFormat a with
  | some f =>
      have hq2 : priorityFormat r1 = some f := by rw [hprio, hq]
      have hr1 : r1 = { a with contents := cs, formats := keysOf kf } := by
        rw [← hr1d]
        simp [processArticle, hT, hq]
      have hout : processArticle sit r1
          = { r1 with contents := cs, formats := keysOf kf } := by
        simp [processArticle, htrav, hq2]
      rw [hout, hr1]
  | none =>
      have hq2 : priorityFormat r1 = none := by rw [hprio, hq]
      by_cases hs : (kf.map Prod.snd).sum = 0
      · have hr1 : r1 = { a with contents := cs, formats := keysOf kf } := by
          rw [← hr1d]
          simp [processArticle, hT, hq, hs]
        have hout : processArticle sit r1
            = { r1 with contents := cs, formats := keysOf kf } := by
          simp [processArticle, htrav, hq2, hs]
        rw [hout, hr1]
      · by_cases hcond : (Option.map Prod.snd
            (kf[argmax (List.map Prod.snd kf)]?)).getD 0 = (kf.map Prod.snd).sum
        · have hr1 : r1 = { a with contents := cs, formats := keysOf kf, format_ := some ((keysOf kf).getD (argmax (kf.map Prod.snd)) "") } := by
            rw [← hr1d]
            simp [processArticle, hT, hq, hs, hcond]
          have hout : processArticle sit r1
              = { r1 with contents := cs, formats := keysOf kf, format_ := some ((keysOf kf).getD (argmax (kf.map Prod.snd)) "") } := by
            simp [processArticle, htrav, hq2, hs, hcond]
          rw [hout, hr1]
        · have hr1 : r1 = { a with contents := cs, formats := keysOf kf } := by
            rw [← hr1d]
            simp [processArticle, hT, hq, hs, hcond]
          have hout : processArticle sit r1
              = { r1 with contents := cs, formats := keysOf kf } := by
            simp [processArticle, htrav, hq2, hs, hcond]
          rw [hout, hr1]

/-- Counterexample article for C3: a decklist with no format that the first
run stamps with the priority format, which the second run then counts. -/
def feedbackArticle : MtgArticle :=
  { title := some "pioneer", tags := [], formats := [], format_ := none,
    contents := [.decklist ⟨none⟩] }

theorem process_article_not_idempotent :
    (processArticle false feedbackArticle).tags = feedbackArticle.tags ∧
    (processArticle false feedbackArticle).formats = [] ∧
    (processArticle false (processArticle false feedbackArticle)).formats
      = ["pioneer"] ∧
    "pioneer" ∈
      (processArticle false (processArticle false feedbackArticle)).formats ∧
    "pioneer" ∉ (processArticle false feedbackArticle).formats :=
  ⟨rfl, rfl, rfl, by decide, by decide⟩

/-- Witness article for C3 (amended): a decklist-free tree whose run counts
a format and sets the canonical format. -/
def sectionArticle : MtgArticle :=
  { title := none, tags := [], formats := [], format_ := none,
    contents := [.section_ (some "standard rotation") none
      [.block ⟨"standard standard", none⟩]] }

theorem process_article_idempotent_no_decklists_witness :
    noDecklistList sectionArticle.contents = true ∧
    processArticle true (processArticle true sectionArticle)
      = processArticle true sectionArticle :=
  ⟨rfl, process_article_idempotent_no_decklists true sectionArticle rfl⟩
